import Mathlib

/-!
# Verification of `CharPointer_UTF32`

A shallow embedding of the JUCE `CharPointer_UTF32` class
(`src/text/juce_CharPointer_UTF32.h`).  The class wraps a raw pointer into a
null-terminated buffer of 32-bit code units.  We model:

* memory as a total function `Mem := Nat → Nat` from unit addresses to the
  32-bit code unit stored there (one address per 32-bit unit, so C pointer
  arithmetic `data + n` becomes `data + n` on addresses);
* the wrapper itself as a structure holding the address `data`;
* each member function as a Lean function over `(Mem, cursor)`; the
  unbounded `while` loops of the source (`length`, `writeAll`, `compare`,
  `indexOf`) take an explicit fuel argument and are proved correct for any
  fuel exceeding the length of the (well-formed, terminated) string involved.

`strAt mem a l` states that the buffer starting at address `a` holds exactly
the characters of `l` (all nonzero) followed by the zero terminator: this is
the well-formedness invariant of the spec.
-/

abbrev Mem := Nat → Nat

/-- Pointwise store update: the result of a single C assignment `*p = v`. -/
def Mem.update (mem : Mem) (a v : Nat) : Mem :=
  fun x => if x = a then v else mem x

/-- `strAt mem a l`: the well-formed, null-terminated string with characters
`l` lives at address `a`: unit `a + i` holds `l[i]` (nonzero) for `i <
l.length`, and unit `a + l.length` holds the zero terminator. -/
def strAt (mem : Mem) (a : Nat) (l : List Nat) : Prop :=
  (∀ i < l.length, mem (a + i) = l.getD i 0 ∧ l.getD i 0 ≠ 0) ∧
    mem (a + l.length) = 0

instance (mem : Mem) (a : Nat) (l : List Nat) : Decidable (strAt mem a l) := by
  unfold strAt; infer_instance

/-- The pointer wrapper: `data` is the wrapped address. -/
structure CharPointer_UTF32 where
  data : Nat
deriving DecidableEq

namespace CharPointer_UTF32

/-- `operator==`: `return data == other.data;` (a pointer comparison). -/
def beq (p other : CharPointer_UTF32) : Bool :=
  p.data == other.data

/-- `operator!=` exactly as written in the source: `return data == other.data;`. -/
def bne (p other : CharPointer_UTF32) : Bool :=
  p.data == other.data

/-- `operator*`: the code unit under the cursor. -/
def deref (mem : Mem) (p : CharPointer_UTF32) : Nat :=
  mem p.data

/-- `write (charToWrite)`: `*data++ = charToWrite;` — store at the current
position, then advance; returns the updated memory and the advanced cursor. -/
def write (mem : Mem) (p : CharPointer_UTF32) (charToWrite : Nat) :
    Mem × CharPointer_UTF32 :=
  (mem.update p.data charToWrite, ⟨p.data + 1⟩)

/-- `writeNull`: `*data = 0;` — a `const` member: it stores the terminator at
the current position and leaves the cursor untouched, so only the memory is
returned. -/
def writeNull (mem : Mem) (p : CharPointer_UTF32) : Mem :=
  mem.update p.data 0

/-- The scanning loop of `length`: `while (data[n] != 0) ++n;` (equivalently
`wcslen`), with fuel bounding the number of iterations. -/
def lengthAux (mem : Mem) : Nat → Nat → Nat
  | _, 0 => 0
  | a, fuel + 1 => if mem a = 0 then 0 else lengthAux mem (a + 1) fuel + 1

/-- `length()`: the number of characters strictly before the terminator. -/
def length (mem : Mem) (p : CharPointer_UTF32) (fuel : Nat) : Nat :=
  lengthAux mem p.data fuel

/-- `sizeInBytes()`: `sizeof (CharType) * (length() + 1)` with
`sizeof (CharType) = 4`. -/
def sizeInBytes (mem : Mem) (p : CharPointer_UTF32) (fuel : Nat) : Nat :=
  4 * (length mem p fuel + 1)

/-- The string variant of `getBytesRequiredFor`:
`sizeof (CharType) * text.length()`, instantiated at a UTF-32 source cursor
(the only cursor type among the sources). -/
def getBytesRequiredFor (mem : Mem) (text : CharPointer_UTF32) (fuel : Nat) :
    Nat :=
  4 * length mem text fuel

/-- `findTerminatingNull()`: `CharPointer_UTF32 (data + length())`. -/
def findTerminatingNull (mem : Mem) (p : CharPointer_UTF32) (fuel : Nat) :
    CharPointer_UTF32 :=
  ⟨p.data + length mem p fuel⟩

/-- The copy loop of `writeAll (const CharPointer_UTF32& src)`:
`while ((*data = *s) != 0) { ++data; ++s; }` — note the assignment happens
before the test, so the final zero IS stored into the destination.  Returns
the memory together with the final values of `data` and the local `s`. -/
def writeAllAux : Nat → Mem → Nat → Nat → Mem × Nat × Nat
  | 0, mem, d, s => (mem, d, s)
  | fuel + 1, mem, d, s =>
    if mem s = 0 then (mem.update d (mem s), d, s)
    else writeAllAux fuel (mem.update d (mem s)) (d + 1) (s + 1)

/-- `writeAll (src)` for a UTF-32 source: final memory and final destination
cursor. -/
def writeAll (mem : Mem) (dest src : CharPointer_UTF32) (fuel : Nat) :
    Mem × CharPointer_UTF32 :=
  ((writeAllAux fuel mem dest.data src.data).1,
    ⟨(writeAllAux fuel mem dest.data src.data).2.1⟩)

/-- The comparison loop of `compare (const CharPointer_UTF32&)` (`wcscmp`):
walk both strings in lockstep, return the signed difference of the first
differing units, `0` when the shared terminator is reached. -/
def compareAux : Nat → Mem → Nat → Nat → Int
  | 0, _, _, _ => 0
  | fuel + 1, mem, a, b =>
    if mem a ≠ mem b then (mem a : Int) - (mem b : Int)
    else if mem a = 0 then 0
    else compareAux fuel mem (a + 1) (b + 1)

/-- `compare (other)`: `wcscmp (data, other.data)`. -/
def compare (mem : Mem) (p other : CharPointer_UTF32) (fuel : Nat) : Int :=
  compareAux fuel mem p.data other.data

/-- The scan of `indexOf (juce_wchar charToFind)`:
`while (data[i] != 0) { if (data[i] == charToFind) return i; ++i; }
return -1;`. -/
def indexOfAux : Nat → Mem → Nat → Nat → Nat → Int
  | 0, _, _, _, _ => -1
  | fuel + 1, mem, a, c, i =>
    if mem (a + i) = 0 then -1
    else if mem (a + i) = c then (i : Int)
    else indexOfAux fuel mem a c (i + 1)

/-- `indexOf (charToFind)`: index of the first occurrence, `-1` if absent. -/
def indexOf (mem : Mem) (p : CharPointer_UTF32) (charToFind : Nat)
    (fuel : Nat) : Int :=
  indexOfAux fuel mem p.data charToFind 0

/-- Modelled from the spec: `lengthUpTo` delegates to
`CharacterFunctions::lengthUpTo`, which is not among the sources.  Per the
spec it "counts characters strictly before the terminator, capped at `max`
for the bounded variant (scan stops early once the cap is reached, even if
the terminator has not appeared)". -/
def lengthUpToAux : Nat → Mem → Nat → Nat → Nat
  | 0, _, _, _ => 0
  | fuel + 1, mem, a, maxChars =>
    if maxChars = 0 then 0
    else if mem a = 0 then 0
    else lengthUpToAux fuel mem (a + 1) (maxChars - 1) + 1

/-- `lengthUpTo (maxCharsToCount)` (modelled from the spec, see
`lengthUpToAux`). -/
def lengthUpTo (mem : Mem) (p : CharPointer_UTF32) (maxCharsToCount : Nat)
    (fuel : Nat) : Nat :=
  lengthUpToAux fuel mem p.data maxCharsToCount

end CharPointer_UTF32

/-- A concrete memory: the one-character string `"A"` (65) terminated at
address 0, and stale nonzero garbage (99) at addresses 10 and 11 where a
destination buffer lives. -/
def memA : Mem :=
  fun x => if x = 0 then 65 else if x = 10 then 99 else if x = 11 then 99 else 0

/-- A concrete memory: the two-character string `"Hi"` (72, 105) terminated
at address 0; everything else zero. -/
def memW : Mem :=
  fun x => if x = 0 then 72 else if x = 1 then 105 else 0

/-! ## Basic facts about `strAt` -/

theorem strAt_nil {mem : Mem} {a : Nat} : strAt mem a [] ↔ mem a = 0 := by
  simp [strAt]

theorem strAt_cons {mem : Mem} {a c : Nat} {t : List Nat} :
    strAt mem a (c :: t) ↔ mem a = c ∧ c ≠ 0 ∧ strAt mem (a + 1) t := by
  constructor
  · rintro ⟨hchar, hterm⟩
    have h0 := hchar 0 (Nat.succ_pos _)
    simp at h0
    refine ⟨h0.1, h0.2, ?_, ?_⟩
    · intro i hi
      have e : a + 1 + i = a + (i + 1) := by omega
      rw [e]
      simpa using hchar (i + 1) (by simp only [List.length_cons]; omega)
    · have e : a + 1 + t.length = a + (t.length + 1) := by omega
      rw [e]
      simpa using hterm
  · rintro ⟨hc, hc0, hchar, hterm⟩
    refine ⟨?_, ?_⟩
    · intro i hi
      match i with
      | 0 => simpa using ⟨hc, hc0⟩
      | i + 1 =>
        have e : a + (i + 1) = a + 1 + i := by omega
        rw [e]
        simpa using hchar i
          (by simp only [List.length_cons] at hi; omega)
    · have e : a + (c :: t).length = a + 1 + t.length := by
        simp only [List.length_cons]; omega
      rw [e]
      exact hterm

namespace CharPointer_UTF32

theorem update_apply (mem : Mem) (a v x : Nat) :
    mem.update a v x = if x = a then v else mem x := rfl

/-! ## The length scan -/

theorem lengthAux_eq (l : List Nat) : ∀ (mem : Mem) (a fuel : Nat),
    strAt mem a l → l.length < fuel → lengthAux mem a fuel = l.length := by
  induction l with
  | nil =>
    intro mem a fuel h hf
    match fuel, hf with
    | fuel + 1, _ => simp [lengthAux, strAt_nil.mp h]
  | cons c t ih =>
    intro mem a fuel h hf
    obtain ⟨hc, hc0, ht⟩ := strAt_cons.mp h
    match fuel, hf with
    | fuel + 1, hf =>
      have hne : mem a ≠ 0 := by rw [hc]; exact hc0
      simp only [lengthAux, List.length_cons]
      rw [if_neg hne,
        ih mem (a + 1) fuel ht
          (by simp only [List.length_cons] at hf; omega)]

theorem length_eq {mem : Mem} {a : Nat} {l : List Nat} {fuel : Nat}
    (h : strAt mem a l) (hf : l.length < fuel) :
    length mem ⟨a⟩ fuel = l.length :=
  lengthAux_eq l mem a fuel h hf

/-! ## Memories that agree on a string region -/

theorem strAt_congr {mem1 mem2 : Mem} {a : Nat} {l : List Nat}
    (h : ∀ i ≤ l.length, mem2 (a + i) = mem1 (a + i)) :
    strAt mem1 a l → strAt mem2 a l := by
  rintro ⟨hchar, hterm⟩
  refine ⟨fun i hi => ?_, ?_⟩
  · rw [h i (le_of_lt hi)]; exact hchar i hi
  · rw [h l.length le_rfl]; exact hterm

/-! ## The copy loop of `writeAll` -/

theorem writeAllAux_spec (l : List Nat) :
    ∀ (fuel : Nat) (mem : Mem) (d s : Nat),
    strAt mem s l →
    (∀ i ≤ l.length, ∀ j ≤ l.length, d + i ≠ s + j) →
    l.length < fuel →
    (writeAllAux fuel mem d s).2.1 = d + l.length ∧
    (writeAllAux fuel mem d s).2.2 = s + l.length ∧
    (∀ i < l.length, (writeAllAux fuel mem d s).1 (d + i) = l.getD i 0) ∧
    (writeAllAux fuel mem d s).1 (d + l.length) = 0 ∧
    (∀ x, (∀ i ≤ l.length, x ≠ d + i) →
      (writeAllAux fuel mem d s).1 x = mem x) := by
  induction l with
  | nil =>
    intro fuel mem d s hs _ hf
    match fuel, hf with
    | fuel + 1, _ =>
      have h0 : mem s = 0 := strAt_nil.mp hs
      have hstep : writeAllAux (fuel + 1) mem d s = (mem.update d 0, d, s) := by
        simp [writeAllAux, h0]
      rw [hstep]
      refine ⟨by simp, by simp, fun i hi => absurd hi (Nat.not_lt_zero i),
        ?_, ?_⟩
      · simp [Mem.update]
      · intro x hx
        have : x ≠ d := by have := hx 0 (by omega); omega
        simp [Mem.update, this]
  | cons c t ih =>
    intro fuel mem d s hs hd hf
    obtain ⟨hc, hc0, ht⟩ := strAt_cons.mp hs
    match fuel, hf with
    | fuel + 1, hf =>
      have hne : mem s ≠ 0 := by rw [hc]; exact hc0
      have hstep :
          writeAllAux (fuel + 1) mem d s =
            writeAllAux fuel (mem.update d (mem s)) (d + 1) (s + 1) := by
        simp only [writeAllAux, if_neg hne]
      have ht2 : strAt (mem.update d (mem s)) (s + 1) t := by
        refine strAt_congr (fun i hi => ?_) ht
        have hdij := hd 0 (by omega) (i + 1)
          (by simp only [List.length_cons]; omega)
        have : s + 1 + i ≠ d := by omega
        simp [Mem.update, this]
      have hd2 : ∀ i ≤ t.length, ∀ j ≤ t.length, d + 1 + i ≠ s + 1 + j := by
        intro i hi j hj
        have := hd (i + 1) (by simp only [List.length_cons]; omega)
          (j + 1) (by simp only [List.length_cons]; omega)
        omega
      have hf2 : t.length < fuel := by
        simp only [List.length_cons] at hf; omega
      obtain ⟨ih1, ih2, ih3, ih4, ih5⟩ :=
        ih fuel (mem.update d (mem s)) (d + 1) (s + 1) ht2 hd2 hf2
      rw [hstep]
      refine ⟨?_, ?_, ?_, ?_, ?_⟩
      · rw [ih1]; simp only [List.length_cons]; omega
      · rw [ih2]; simp only [List.length_cons]; omega
      · intro i hi
        match i with
        | 0 =>
          have hfr : (writeAllAux fuel (mem.update d (mem s)) (d + 1)
              (s + 1)).1 d = (mem.update d (mem s)) d :=
            ih5 d (fun i hi => by omega)
          simp only [Nat.add_zero, hfr, List.getD]
          simp [Mem.update, hc]
        | i + 1 =>
          have hi2 : i < t.length := by
            simp only [List.length_cons] at hi; omega
          have e : d + (i + 1) = d + 1 + i := by omega
          rw [e]
          simpa using ih3 i hi2
      · have e : d + (c :: t).length = d + 1 + t.length := by
          simp only [List.length_cons]; omega
        rw [e]
        exact ih4
      · intro x hx
        have hx2 : ∀ i ≤ t.length, x ≠ d + 1 + i := by
          intro i hi
          have := hx (i + 1) (by simp only [List.length_cons]; omega)
          omega
        have hxd : x ≠ d := by
          have := hx 0 (by omega); omega
        rw [ih5 x hx2]
        simp [Mem.update, hxd]

/-! ## The comparison loop -/

theorem compareAux_eq_zero (l : List Nat) :
    ∀ (fuel : Nat) (mem : Mem) (a b : Nat),
    strAt mem a l → strAt mem b l → l.length < fuel →
    compareAux fuel mem a b = 0 := by
  induction l with
  | nil =>
    intro fuel mem a b ha hb hf
    match fuel, hf with
    | fuel + 1, _ =>
      have h0a : mem a = 0 := strAt_nil.mp ha
      have h0b : mem b = 0 := strAt_nil.mp hb
      simp [compareAux, h0a, h0b]
  | cons c t ih =>
    intro fuel mem a b ha hb hf
    obtain ⟨hca, hc0, hta⟩ := strAt_cons.mp ha
    obtain ⟨hcb, _, htb⟩ := strAt_cons.mp hb
    match fuel, hf with
    | fuel + 1, hf =>
      have heq : mem a = mem b := by rw [hca, hcb]
      have hnzb : mem b ≠ 0 := by rw [hcb]; exact hc0
      have hstep : compareAux (fuel + 1) mem a b =
          compareAux fuel mem (a + 1) (b + 1) := by
        simp [compareAux, heq, hnzb]
      rw [hstep]
      exact ih fuel mem (a + 1) (b + 1) hta htb
        (by simp only [List.length_cons] at hf; omega)

/-! ## The (spec-modelled) bounded length scan -/

theorem lengthUpToAux_le :
    ∀ (fuel : Nat) (mem : Mem) (a k : Nat), lengthUpToAux fuel mem a k ≤ k := by
  intro fuel
  induction fuel with
  | zero => intro mem a k; simp [lengthUpToAux]
  | succ fuel ih =>
    intro mem a k
    simp only [lengthUpToAux]
    split
    · omega
    · split
      · omega
      · have := ih mem (a + 1) (k - 1)
        omega

theorem lengthUpToAux_eq_min (l : List Nat) :
    ∀ (fuel : Nat) (mem : Mem) (a k : Nat),
    strAt mem a l → l.length < fuel →
    lengthUpToAux fuel mem a k = min k l.length := by
  induction l with
  | nil =>
    intro fuel mem a k hs hf
    match fuel, hf with
    | fuel + 1, _ =>
      have h0 : mem a = 0 := strAt_nil.mp hs
      have hstep : lengthUpToAux (fuel + 1) mem a k = 0 := by
        simp [lengthUpToAux, h0]
      rw [hstep]
      simp
  | cons c t ih =>
    intro fuel mem a k hs hf
    obtain ⟨hc, hc0, ht⟩ := strAt_cons.mp hs
    match fuel, hf with
    | fuel + 1, hf =>
      have hnz : mem a ≠ 0 := by rw [hc]; exact hc0
      have hf2 : t.length < fuel := by
        simp only [List.length_cons] at hf; omega
      have hstep : lengthUpToAux (fuel + 1) mem a k =
          if k = 0 then 0 else lengthUpToAux fuel mem (a + 1) (k - 1) + 1 := by
        simp [lengthUpToAux, hnz]
      rw [hstep]
      by_cases hk : k = 0
      · simp [hk]
      · rw [if_neg hk, ih fuel mem (a + 1) (k - 1) ht hf2]
        simp only [List.length_cons]
        omega

/-! ## The character search loop -/

theorem indexOfAux_spec (l : List Nat) :
    ∀ (fuel : Nat) (mem : Mem) (a c i : Nat),
    strAt mem (a + i) l → l.length < fuel →
    indexOfAux fuel mem a c i =
      if c ∈ l then ((i + List.indexOf c l : Nat) : Int) else -1 := by
  induction l with
  | nil =>
    intro fuel mem a c i hs hf
    match fuel, hf with
    | fuel + 1, _ =>
      have h0 : mem (a + i) = 0 := strAt_nil.mp hs
      simp [indexOfAux, h0]
  | cons hd t ih =>
    intro fuel mem a c i hs hf
    obtain ⟨hc, hc0, ht⟩ := strAt_cons.mp hs
    match fuel, hf with
    | fuel + 1, hf =>
      have hnz : mem (a + i) ≠ 0 := by rw [hc]; exact hc0
      simp only [indexOfAux]
      rw [if_neg hnz]
      by_cases hmatch : hd = c
      · rw [if_pos (by rw [hc, hmatch]),
          if_pos (by rw [← hmatch]; exact List.mem_cons_self hd t),
          hmatch, List.indexOf_cons_self]
        simp
      · rw [if_neg (by rw [hc]; exact hmatch)]
        have hrec := ih fuel mem a c (i + 1)
          (by have e : a + (i + 1) = a + i + 1 := by omega
              rw [e]; exact ht)
          (by simp only [List.length_cons] at hf; omega)
        rw [hrec]
        by_cases hmem : c ∈ t
        · rw [if_pos hmem, if_pos (List.mem_cons_of_mem hd hmem),
            List.indexOf_cons_ne t hmatch]
          push_cast
          omega
        · rw [if_neg hmem, if_neg (by
            intro habs
            rcases List.mem_cons.mp habs with h1 | h2
            · exact hmatch h1.symm
            · exact hmem h2)]

/-! ## Claim theorems -/

/-- C2: `operator!=` returns exactly the same boolean as `operator==` — both
test equality of the wrapped addresses, so `operator!=` is not the negation
of `operator==` and never returns `true` for cursors wrapping different
addresses. -/
theorem bne_eq_beq (p other : CharPointer_UTF32) :
    bne p other = beq p other ∧ (bne p other = true ↔ p.data = other.data) :=
  ⟨rfl, by simp [bne]⟩

/-- C9: `write c` stores `c` at the current position and advances the cursor
by one, modifying no other unit; `writeNull` stores the zero terminator at
the current position (modifying only that unit) and, being `const`, leaves
the cursor position unchanged. -/
theorem write_writeNull_frame (mem : Mem) (p : CharPointer_UTF32)
    (c x : Nat) :
    (write mem p c).1 x = (if x = p.data then c else mem x) ∧
    (write mem p c).2.data = p.data + 1 ∧
    writeNull mem p x = (if x = p.data then 0 else mem x) :=
  ⟨rfl, rfl, rfl⟩

/-- C4: for a well-formed terminated string, `sizeInBytes` returns
`(length() + 1) * 4`, the storage required for the string including its
terminator (the 32-bit code unit is 4 bytes wide). -/
theorem sizeInBytes_spec (mem : Mem) (a : Nat) (l : List Nat) (fuel : Nat)
    (h : strAt mem a l) (hf : l.length < fuel) :
    sizeInBytes mem ⟨a⟩ fuel = (length mem ⟨a⟩ fuel + 1) * 4 ∧
    sizeInBytes mem ⟨a⟩ fuel = (l.length + 1) * 4 := by
  unfold sizeInBytes
  rw [length_eq h hf]
  omega

/-- C4 witness: `sizeInBytes` of the two-character string `"Hi"` is 12. -/
theorem sizeInBytes_spec_witness :
    strAt memW 0 [72, 105] ∧
    (sizeInBytes memW ⟨0⟩ 5 = (length memW ⟨0⟩ 5 + 1) * 4 ∧
      sizeInBytes memW ⟨0⟩ 5 = ([72, 105].length + 1) * 4) :=
  ⟨by decide, sizeInBytes_spec memW 0 [72, 105] 5 (by decide) (by decide)⟩

/-- C5: the string variant of `getBytesRequiredFor` returns
`sourceLength * 4`, the bytes needed to hold a copy of the source string in
this fixed-width encoding, excluding the terminator (instantiated at a
UTF-32 source cursor, the only cursor type among the sources). -/
theorem getBytesRequiredFor_spec (mem : Mem) (a : Nat) (l : List Nat)
    (fuel : Nat) (h : strAt mem a l) (hf : l.length < fuel) :
    getBytesRequiredFor mem ⟨a⟩ fuel = l.length * 4 := by
  unfold getBytesRequiredFor
  rw [length_eq h hf]
  omega

/-- C5 witness: `getBytesRequiredFor` of the two-character string `"Hi"`
is 8. -/
theorem getBytesRequiredFor_spec_witness :
    strAt memW 0 [72, 105] ∧
    getBytesRequiredFor memW ⟨0⟩ 5 = [72, 105].length * 4 :=
  ⟨by decide, getBytesRequiredFor_spec memW 0 [72, 105] 5 (by decide)
    (by decide)⟩

/-- C6: for a well-formed terminated string, `length` equals
`lengthUpTo (length + 1)`, and `lengthUpTo k ≤ k` for every cap `k`
(`lengthUpTo` modelled from the spec, see `lengthUpToAux`). -/
theorem length_lengthUpTo_spec (mem : Mem) (a : Nat) (l : List Nat)
    (fuel k : Nat) (h : strAt mem a l) (hf : l.length < fuel) :
    length mem ⟨a⟩ fuel =
      lengthUpTo mem ⟨a⟩ (length mem ⟨a⟩ fuel + 1) fuel ∧
    lengthUpTo mem ⟨a⟩ k fuel ≤ k := by
  constructor
  · rw [length_eq h hf]
    unfold lengthUpTo
    rw [lengthUpToAux_eq_min l fuel mem a (l.length + 1) h hf]
    omega
  · exact lengthUpToAux_le fuel mem a k

/-- C6 witness: for the two-character string `"Hi"`,
`length = lengthUpTo (length+1)` and `lengthUpTo 1 ≤ 1`. -/
theorem length_lengthUpTo_spec_witness :
    strAt memW 0 [72, 105] ∧
    (length memW ⟨0⟩ 5 =
        lengthUpTo memW ⟨0⟩ (length memW ⟨0⟩ 5 + 1) 5 ∧
      lengthUpTo memW ⟨0⟩ 1 5 ≤ 1) :=
  ⟨by decide,
    length_lengthUpTo_spec memW 0 [72, 105] 5 1 (by decide) (by decide)⟩

/-- C7: `indexOf (charToFind)` scans linearly from the current position and
returns the zero-based offset of the first character equal to the target
(`List.indexOf` is that first offset), or the sentinel `-1` when the
terminator is reached without a match. -/
theorem indexOf_spec (mem : Mem) (a : Nat) (l : List Nat) (c : Nat)
    (fuel : Nat) (h : strAt mem a l) (hf : l.length < fuel) :
    indexOf mem ⟨a⟩ c fuel =
      if c ∈ l then ((List.indexOf c l : Nat) : Int) else -1 := by
  unfold indexOf
  have hres := indexOfAux_spec l fuel mem a c 0 (by simpa using h) hf
  simpa using hres

/-- C7 witness: in `"Hi"`, the character 105 is found at offset 1, and 120
is not found (result `-1`). -/
theorem indexOf_spec_witness :
    strAt memW 0 [72, 105] ∧
    indexOf memW ⟨0⟩ 105 5 =
      (if 105 ∈ [72, 105] then ((List.indexOf 105 [72, 105] : Nat) : Int)
        else -1) :=
  ⟨by decide, indexOf_spec memW 0 [72, 105] 105 5 (by decide) (by decide)⟩

/-- C8: `findTerminatingNull` returns a cursor positioned exactly at the
terminator: its address is the start plus `length()`, and dereferencing it
yields zero. -/
theorem findTerminatingNull_spec (mem : Mem) (a : Nat) (l : List Nat)
    (fuel : Nat) (h : strAt mem a l) (hf : l.length < fuel) :
    (findTerminatingNull mem ⟨a⟩ fuel).data = a + length mem ⟨a⟩ fuel ∧
    (findTerminatingNull mem ⟨a⟩ fuel).data = a + l.length ∧
    deref mem (findTerminatingNull mem ⟨a⟩ fuel) = 0 := by
  unfold findTerminatingNull deref
  rw [length_eq h hf]
  exact ⟨rfl, rfl, h.2⟩

/-- C8 witness: for the two-character string `"Hi"` at address 0, the
terminator cursor sits at address 2 and dereferences to zero. -/
theorem findTerminatingNull_spec_witness :
    strAt memW 0 [72, 105] ∧
    ((findTerminatingNull memW ⟨0⟩ 5).data = 0 + length memW ⟨0⟩ 5 ∧
      (findTerminatingNull memW ⟨0⟩ 5).data = 0 + [72, 105].length ∧
      deref memW (findTerminatingNull memW ⟨0⟩ 5) = 0) :=
  ⟨by decide,
    findTerminatingNull_spec memW 0 [72, 105] 5 (by decide) (by decide)⟩

/-- C1 counterexample: `writeAll` DOES write a terminator into the
destination.  With the one-character source `"A"` at address 0 and a
destination at address 10 whose units initially hold the nonzero garbage
value 99, the copy overwrites unit 11 — one past the copied character —
with the zero terminator, and the final destination cursor sits at that
terminator's address 11, not one position before it. -/
theorem writeAll_terminator_cex :
    strAt memA 0 [65] ∧
    memA 11 = 99 ∧
    (writeAll memA ⟨10⟩ ⟨0⟩ 5).1 10 = 65 ∧
    (writeAll memA ⟨10⟩ ⟨0⟩ 5).1 11 = 0 ∧
    (writeAll memA ⟨10⟩ ⟨0⟩ 5).2.data = 11 := by
  decide

/-- C1 (amended): `writeAll` copies src's characters into dest one at a
time until src's terminator, ALSO stores the zero terminator into dest, and
leaves the destination cursor at the terminator's position (one past the
last character, not advanced past the terminator); it modifies nothing
outside dest's first `length + 1` units, so no explicit `writeTerminator`
call is needed for a terminated result. -/
theorem writeAll_spec (mem : Mem) (d s : Nat) (l : List Nat) (fuel : Nat)
    (hs : strAt mem s l)
    (hdisj : ∀ i ≤ l.length, ∀ j ≤ l.length, d + i ≠ s + j)
    (hf : l.length < fuel) :
    (writeAll mem ⟨d⟩ ⟨s⟩ fuel).2.data = d + l.length ∧
    (∀ i < l.length, (writeAll mem ⟨d⟩ ⟨s⟩ fuel).1 (d + i) = l.getD i 0) ∧
    (writeAll mem ⟨d⟩ ⟨s⟩ fuel).1 (d + l.length) = 0 ∧
    (∀ x, (∀ i ≤ l.length, x ≠ d + i) →
      (writeAll mem ⟨d⟩ ⟨s⟩ fuel).1 x = mem x) := by
  obtain ⟨h1, _, h3, h4, h5⟩ := writeAllAux_spec l fuel mem d s hs hdisj hf
  exact ⟨h1, h3, h4, h5⟩

/-- C1 witness: copying `"Hi"` from address 0 to address 10. -/
theorem writeAll_spec_witness :
    strAt memW 0 [72, 105] ∧
    ((writeAll memW ⟨10⟩ ⟨0⟩ 5).2.data = 10 + [72, 105].length ∧
      (∀ i < [72, 105].length,
        (writeAll memW ⟨10⟩ ⟨0⟩ 5).1 (10 + i) = [72, 105].getD i 0) ∧
      (writeAll memW ⟨10⟩ ⟨0⟩ 5).1 (10 + [72, 105].length) = 0 ∧
      (∀ x, (∀ i ≤ [72, 105].length, x ≠ 10 + i) →
        (writeAll memW ⟨10⟩ ⟨0⟩ 5).1 x = memW x)) :=
  ⟨by decide,
    writeAll_spec memW 10 0 [72, 105] 5 (by decide) (by decide) (by decide)⟩

/-- C3: round-trip — `writeAll` (the concrete `copyAll` loop) followed by
`writeNull` on the returned destination cursor leaves dest holding exactly
src's characters (as a well-formed terminated string), and
`compare (dest, src) = 0` afterwards.  The destination region is assumed
disjoint from the source and of sufficient capacity (`length + 1` units). -/
theorem copyAll_writeNull_roundtrip (mem : Mem) (d s : Nat) (l : List Nat)
    (fuel : Nat) (hs : strAt mem s l)
    (hdisj : ∀ i ≤ l.length, ∀ j ≤ l.length, d + i ≠ s + j)
    (hf : l.length < fuel) :
    strAt (writeNull (writeAll mem ⟨d⟩ ⟨s⟩ fuel).1
        (writeAll mem ⟨d⟩ ⟨s⟩ fuel).2) d l ∧
    compare (writeNull (writeAll mem ⟨d⟩ ⟨s⟩ fuel).1
        (writeAll mem ⟨d⟩ ⟨s⟩ fuel).2) ⟨d⟩ ⟨s⟩ fuel = 0 := by
  obtain ⟨h1, _, h3, h4, h5⟩ := writeAllAux_spec l fuel mem d s hs hdisj hf
  have hcur : (writeAll mem ⟨d⟩ ⟨s⟩ fuel).2.data = d + l.length := h1
  have h3s : ∀ i < l.length,
      (writeAll mem ⟨d⟩ ⟨s⟩ fuel).1 (d + i) = l.getD i 0 := h3
  have h4s : (writeAll mem ⟨d⟩ ⟨s⟩ fuel).1 (d + l.length) = 0 := h4
  have h5s : ∀ x, (∀ i ≤ l.length, x ≠ d + i) →
      (writeAll mem ⟨d⟩ ⟨s⟩ fuel).1 x = mem x := h5
  have hmem2 : ∀ x,
      writeNull (writeAll mem ⟨d⟩ ⟨s⟩ fuel).1
        (writeAll mem ⟨d⟩ ⟨s⟩ fuel).2 x =
      (writeAll mem ⟨d⟩ ⟨s⟩ fuel).1 x := by
    intro x
    show Mem.update _ _ 0 x = _
    rw [hcur]
    by_cases hx : x = d + l.length
    · rw [Mem.update, if_pos hx, hx]
      exact h4s.symm
    · rw [Mem.update, if_neg hx]
  have hdest : strAt (writeNull (writeAll mem ⟨d⟩ ⟨s⟩ fuel).1
      (writeAll mem ⟨d⟩ ⟨s⟩ fuel).2) d l := by
    refine ⟨fun i hi => ?_, ?_⟩
    · rw [hmem2 (d + i), h3s i hi]
      exact ⟨rfl, (hs.1 i hi).2⟩
    · rw [hmem2 (d + l.length)]
      exact h4s
  have hsrc : strAt (writeNull (writeAll mem ⟨d⟩ ⟨s⟩ fuel).1
      (writeAll mem ⟨d⟩ ⟨s⟩ fuel).2) s l := by
    refine strAt_congr (fun j hj => ?_) hs
    rw [hmem2 (s + j)]
    exact h5s (s + j) (fun i hi => fun habs => hdisj i hi j hj habs.symm)
  exact ⟨hdest, compareAux_eq_zero l fuel _ d s hdest hsrc hf⟩

/-- C3 witness: round-tripping `"Hi"` from address 0 into the buffer at
address 10. -/
theorem copyAll_writeNull_roundtrip_witness :
    strAt memW 0 [72, 105] ∧
    (strAt (writeNull (writeAll memW ⟨10⟩ ⟨0⟩ 5).1
        (writeAll memW ⟨10⟩ ⟨0⟩ 5).2) 10 [72, 105] ∧
      compare (writeNull (writeAll memW ⟨10⟩ ⟨0⟩ 5).1
        (writeAll memW ⟨10⟩ ⟨0⟩ 5).2) ⟨10⟩ ⟨0⟩ 5 = 0) :=
  ⟨by decide,
    copyAll_writeNull_roundtrip memW 10 0 [72, 105] 5 (by decide) (by decide)
      (by decide)⟩

end CharPointer_UTF32
